import Mathlib

/-!
Verification of the streaming transcription core of `rs-voice-toolkit`.

This file gives a shallow embedding, in Lean 4, of the hand-written
algorithmic parts of the repository:

* `AudioBuffer` (`src/stt/src/streaming.rs`) — the bounded ring buffer;
* `StreamingAggregator` (`src/stt/src/streaming.rs`) — the LocalAgreement-n
  longest-common-prefix consensus over successive hypotheses, including its
  byte-level (UTF-8) prefix computation;
* the per-result emission logic of the transcription task of
  `StreamingTranscriber::start_streaming` (`src/stt/src/streaming.rs`);
* `SimpleVad` (`src/stt/src/vad.rs`) — the RMS-energy voice activity gate,
  with `f32` arithmetic modelled by real arithmetic;
* `StreamingResampler` (`src/audio/src/lib.rs`) — the chunked resampler,
  with the external `rubato` engine left abstract;
* the session lifecycle of `StreamingTranscriber`
  (`start_streaming` / `stop_streaming` / `push_audio`).

Rust `String`s are modelled as their UTF-8 byte sequences (`List ℕ`,
each entry a byte), because the aggregator's `longest_common_prefix`
operates on `as_bytes()` and lengths/slices in `push_and_confirm` are byte
lengths/slices.  Audio samples (`f32`) are modelled as real numbers.
-/

/-! ## UTF-8 byte strings

`String::from_utf8` in `longest_common_prefix` and `.trim()` in
`push_and_confirm` are character-level operations, so we model UTF-8
encoding and (strictly validating) decoding of byte sequences. -/

/-- A Rust `String` / `&[u8]` value: its sequence of bytes. -/
abbrev ByteStr := List ℕ

/-- UTF-8 continuation byte test (`0x80 ≤ b < 0xC0`). -/
def isCont (b : ℕ) : Prop := 0x80 ≤ b ∧ b < 0xC0

instance (b : ℕ) : Decidable (isCont b) := by unfold isCont; infer_instance

/-- UTF-8 encoding of a single Unicode scalar value. -/
def utf8EncodeChar (c : ℕ) : List ℕ :=
  if c < 0x80 then [c]
  else if c < 0x800 then [0xC0 + c / 64, 0x80 + c % 64]
  else if c < 0x10000 then
    [0xE0 + c / 4096, 0x80 + c / 64 % 64, 0x80 + c % 64]
  else
    [0xF0 + c / 0x40000, 0x80 + c / 4096 % 64, 0x80 + c / 64 % 64, 0x80 + c % 64]

/-- UTF-8 encoding of a sequence of Unicode scalar values. -/
def utf8Encode (s : List ℕ) : List ℕ := s.flatMap utf8EncodeChar

/-- Strict UTF-8 decoding of a single leading scalar value, mirroring the
validation done by Rust's `String::from_utf8`: rejects continuation-byte
starts, overlong forms, surrogates (`0xD800`–`0xDFFF`) and scalar values
above `0x10FFFF`.  Returns the decoded scalar and the remaining bytes, or
`none` on invalid input (including empty input). -/
def utf8DecodeChar : List ℕ → Option (ℕ × List ℕ)
  | [] => none
  | b :: rest =>
    if b < 0x80 then some (b, rest)
    else if b < 0xC2 then none
    else if b < 0xE0 then
      match rest with
      | b1 :: rest2 =>
        if isCont b1 then some ((b - 0xC0) * 64 + (b1 - 0x80), rest2) else none
      | [] => none
    else if b < 0xF0 then
      match rest with
      | b1 :: b2 :: rest3 =>
        if isCont b1 ∧ isCont b2 ∧ (b = 0xE0 → 0xA0 ≤ b1) ∧ (b = 0xED → b1 < 0xA0) then
          some ((b - 0xE0) * 4096 + (b1 - 0x80) * 64 + (b2 - 0x80), rest3)
        else none
      | _ => none
    else if b < 0xF5 then
      match rest with
      | b1 :: b2 :: b3 :: rest4 =>
        if isCont b1 ∧ isCont b2 ∧ isCont b3 ∧ (b = 0xF0 → 0x90 ≤ b1) ∧ (b = 0xF4 → b1 < 0x90) then
          some ((b - 0xF0) * 0x40000 + (b1 - 0x80) * 4096 + (b2 - 0x80) * 64 + (b3 - 0x80),
            rest4)
        else none
      | _ => none
    else none

/-- Fuelled iteration of `utf8DecodeChar`.  Each successful step consumes
at least one byte, so fuel `l.length` always suffices. -/
def utf8DecodeAux : ℕ → List ℕ → Option (List ℕ)
  | _, [] => some []
  | 0, _ :: _ => none
  | fuel + 1, b :: rest =>
    match utf8DecodeChar (b :: rest) with
    | none => none
    | some p => (utf8DecodeAux fuel p.2).map (p.1 :: ·)

/-- Strict UTF-8 decoding of a whole byte sequence: the decoded scalar
values, or `none` on invalid input. -/
def utf8Decode (l : List ℕ) : Option (List ℕ) := utf8DecodeAux l.length l

/-- A Unicode scalar value: any codepoint except the surrogate range. -/
def ValidChar (c : ℕ) : Prop := c < 0xD800 ∨ (0xDFFF < c ∧ c < 0x110000)

/-- The 25 codepoints with the Unicode `White_Space` property, as tested by
Rust's `char::is_whitespace` (used by `str::trim`). -/
def isWsChar (c : ℕ) : Bool :=
  decide (c = 0x9 ∨ c = 0xA ∨ c = 0xB ∨ c = 0xC ∨ c = 0xD ∨ c = 0x20 ∨
    c = 0x85 ∨ c = 0xA0 ∨ c = 0x1680 ∨ (0x2000 ≤ c ∧ c ≤ 0x200A) ∨
    c = 0x2028 ∨ c = 0x2029 ∨ c = 0x202F ∨ c = 0x205F ∨ c = 0x3000)

/-- Rust `str::trim`: remove leading and trailing whitespace characters. -/
def trimChars (s : List ℕ) : List ℕ :=
  ((s.dropWhile isWsChar).reverse.dropWhile isWsChar).reverse

/-- Model of `.trim()` on a byte string: decode, trim character-wise, re-encode.
The `none` fallback is unreachable at the call sites in `push_and_confirm`,
where the argument is always a valid Rust `String`. -/
def trimBytes (b : ByteStr) : ByteStr :=
  match utf8Decode b with
  | some cs => utf8Encode (trimChars cs)
  | none => b

/-! ## `StreamingAggregator` (`src/stt/src/streaming.rs`, lines 132–191)

The field `confirmed_prefix` of the Rust struct is called `confirmed`
here; `last_texts` keeps the window with its oldest entry in front. -/

/-- Byte-wise longest common prefix of two byte strings: one pass of the
truncation loop in `StreamingAggregator::longest_common_prefix`. -/
def lcpTwo : ByteStr → ByteStr → ByteStr
  | a :: as_, b :: bs => if a = b then a :: lcpTwo as_ bs else []
  | _, _ => []

/-- Rust `StreamingAggregator::longest_common_prefix`: byte-wise LCP of all the
strings, converted back with `String::from_utf8(..).unwrap_or_default()`
(which yields the empty string when the byte-wise prefix splits a
multi-byte character).  The source's early `break` on an empty prefix is a
pure optimisation with no observable effect. -/
def longestCommonPrefixBytes (l : List ByteStr) : ByteStr :=
  match l with
  | [] => []
  | first :: rest =>
    let p := rest.foldl lcpTwo first
    if (utf8Decode p).isSome then p else []

/-- State of `StreamingAggregator`: the sliding hypothesis window
(`last_texts`, oldest first) and the confirmed prefix
(`confirmed_prefix` in the source). -/
structure StreamingAggregator where
  last_texts : List ByteStr
  confirmed : ByteStr
  n : ℕ
  deriving Repr, DecidableEq

/-- Rust `StreamingAggregator::new`: the window size is clamped to at least 2. -/
def StreamingAggregator.new (n : ℕ) : StreamingAggregator :=
  { last_texts := [], confirmed := [], n := max n 2 }

/-- Rust `StreamingAggregator::push_and_confirm`.  Returns the updated state and
the optional newly confirmed delta.  Lengths and the slice
`lcp_trimmed[confirmed.len()..]` are byte-level, exactly as in the source. -/
def StreamingAggregator.push_and_confirm (st : StreamingAggregator) (latest : ByteStr) :
    StreamingAggregator × Option ByteStr :=
  let texts0 := st.last_texts ++ [latest]
  let texts := if texts0.length > st.n then texts0.tail else texts0
  if texts.length < st.n then ({ st with last_texts := texts }, none)
  else
    let lcp := longestCommonPrefixBytes texts
    let lcpTrimmed := trimBytes lcp
    if lcpTrimmed.length > st.confirmed.length then
      let addition := lcpTrimmed.drop st.confirmed.length
      ({ st with last_texts := texts, confirmed := lcpTrimmed },
        if addition.isEmpty then none else some addition)
    else ({ st with last_texts := texts }, none)

/-- Run a session: feed the hypotheses in order through
`push_and_confirm`, recording each call's return value. -/
def runAggFrom (st : StreamingAggregator) : List ByteStr → StreamingAggregator × List (Option ByteStr)
  | [] => (st, [])
  | h :: t =>
    let r := st.push_and_confirm h
    let rest := runAggFrom r.1 t
    (rest.1, r.2 :: rest.2)

/-- Aggregator state after feeding `hyps` into a fresh aggregator. -/
def aggState (n : ℕ) (hyps : List ByteStr) : StreamingAggregator :=
  (runAggFrom (StreamingAggregator.new n) hyps).1

/-- The per-call return values over a session on a fresh aggregator. -/
def aggTrace (n : ℕ) (hyps : List ByteStr) : List (Option ByteStr) :=
  (runAggFrom (StreamingAggregator.new n) hyps).2

/-- The `Some` deltas emitted over a session, in order. -/
def aggDeltas (n : ℕ) (hyps : List ByteStr) : List ByteStr :=
  (aggTrace n hyps).filterMap id

/-! ## Transcription-task emission logic
(`StreamingTranscriber::start_streaming`, `src/stt/src/streaming.rs`,
lines 379–415)

On each successful recognition result the task trims the hypothesis text,
skips it when empty, and otherwise feeds it to the aggregator: a confirmed
delta is emitted as a `Transcription` event (unless it trims to
whitespace); when nothing is confirmed, the raw trimmed text is emitted
only if `local_agreement_n ≤ 1`.  The aggregator itself is always
constructed as `StreamingAggregator::new(config.local_agreement_n)`. -/

/-- Handle one successful recognition result: returns the updated
aggregator and the texts of the `Transcription` events emitted (in order). -/
def emitForResult (local_agreement_n : ℕ) (agg : StreamingAggregator) (resultText : ByteStr) :
    StreamingAggregator × List ByteStr :=
  let text := trimBytes resultText
  if text.isEmpty then (agg, [])
  else
    let r := agg.push_and_confirm text
    match r.2 with
    | some confirmedAdd =>
      (r.1, if (trimBytes confirmedAdd).isEmpty then [] else [confirmedAdd])
    | none =>
      (r.1, if local_agreement_n ≤ 1 then [text] else [])

/-- Run the emission logic over a list of recognition results. -/
def runEmitFrom (local_agreement_n : ℕ) (agg : StreamingAggregator) :
    List ByteStr → StreamingAggregator × List ByteStr
  | [] => (agg, [])
  | h :: t =>
    let r := emitForResult local_agreement_n agg h
    let rest := runEmitFrom local_agreement_n r.1 t
    (rest.1, r.2 ++ rest.2)

/-- Texts of all `Transcription` events emitted for the given sequence of
recognition results, starting from the fresh per-session aggregator. -/
def emitTrace (local_agreement_n : ℕ) (results : List ByteStr) : List ByteStr :=
  (runEmitFrom local_agreement_n (StreamingAggregator.new local_agreement_n) results).2

/-! ## `AudioBuffer` (`src/stt/src/streaming.rs`, lines 76–128)

Samples are `f32`; their values are moved around without inspection, so they are
modelled as real numbers.  The `VecDeque` is a `List` with its front at the
head. -/

/-- The part of `AudioConfig` the buffer uses. -/
structure AudioConfig where
  sample_rate : ℕ

/-- Rust `AudioBuffer`: bounded FIFO sample store. -/
structure AudioBuffer where
  samples : List ℝ
  config : AudioConfig
  max_samples : ℕ

/-- Rust `AudioBuffer::new`.  `max_samples = (sample_rate as f64 *
max_duration.as_secs_f64()) as usize`; for a whole-second duration this is
exactly `sample_rate * max_duration_secs` (the `f64` products involved are
exact). -/
def AudioBuffer.new (config : AudioConfig) (max_duration_secs : ℕ) : AudioBuffer :=
  { samples := [], config := config, max_samples := config.sample_rate * max_duration_secs }

/-- One iteration of the loop body of `AudioBuffer::push_samples`: evict
the front sample when full, then append. -/
def AudioBuffer.pushOne (b : AudioBuffer) (s : ℝ) : AudioBuffer :=
  let b1 := if b.max_samples ≤ b.samples.length then { b with samples := b.samples.tail } else b
  { b1 with samples := b1.samples ++ [s] }

/-- Rust `AudioBuffer::push_samples`: push each new sample in order. -/
def AudioBuffer.push_samples (b : AudioBuffer) (new_samples : List ℝ) : AudioBuffer :=
  new_samples.foldl AudioBuffer.pushOne b

/-- Rust `AudioBuffer::clear`. -/
def AudioBuffer.clear (b : AudioBuffer) : AudioBuffer := { b with samples := [] }

/-! ## `SimpleVad` (`src/stt/src/vad.rs`)

`f32` arithmetic is modelled by real arithmetic, so `detect_speech` is a
proposition rather than a boolean. -/

/-- The VAD detector. -/
structure SimpleVad where
  threshold : ℝ
  window_size : ℕ
  sample_rate : ℕ

/-- Rust `SimpleVad::new_with_sample_rate`: 20 ms window.  `(sample_rate as f64
* 0.02) as usize` is modelled as `sample_rate * 2 / 100` (floor); the two
agree at every sample rate at which `f64` rounding of `0.02 * rate` does
not cross an integer, in particular at all standard rates. -/
def SimpleVad.new_with_sample_rate (threshold : ℝ) (sample_rate : ℕ) : SimpleVad :=
  { threshold := threshold, window_size := sample_rate * 2 / 100, sample_rate := sample_rate }

/-- Rust `SimpleVad::new`: default 16 kHz sample rate. -/
def SimpleVad.new_ (threshold : ℝ) : SimpleVad :=
  SimpleVad.new_with_sample_rate threshold 16000

/-- Rust `SimpleVad::calculate_rms`: RMS energy, `0` on empty input. -/
noncomputable def SimpleVad.calculate_rms (_v : SimpleVad) (samples : List ℝ) : ℝ :=
  if samples.isEmpty then 0
  else Real.sqrt ((samples.map fun x => x * x).sum / samples.length)

/-- Rust `SimpleVad::detect_speech`: false on empty input, otherwise
`rms > threshold` (strict). -/
def SimpleVad.detect_speech (v : SimpleVad) (samples : List ℝ) : Prop :=
  if samples.isEmpty then False
  else v.calculate_rms samples > v.threshold

/-! ## `StreamingResampler` (`src/audio/src/lib.rs`, lines 704–865)

The inner `rubato::SincFixedIn` engine is external third-party code; it is
modelled as an abstract engine state `E` with abstract (possibly failing)
operations `process` (one fixed-size chunk in, samples out) and
`processPartial` (the final drain).  The streaming wrapper itself — the
leftover buffer, the chunking loop, the identity fast path — is translated
from the source. -/

/-- Error cases of the audio crate that the resampler can produce.  The
source attaches message strings; the messages play no role here. -/
inductive AudioError
  | invalidSampleRate
  | resampleError
  | processingError
  deriving Repr, DecidableEq

/-- Rust `StreamingResampler` state over an abstract engine type `E`. -/
structure StreamingResampler (E : Type) where
  resampler : Option E
  from_rate : ℕ
  to_rate : ℕ
  buffer : List ℝ
  chunk_size : ℕ

/-- Rust `StreamingResampler::new`: zero rates are rejected; equal rates build
the engine-less pass-through; otherwise the abstract engine is constructed
(`mkEngine`, `none` modelling a `rubato` construction failure). -/
def StreamingResampler.new_ {E : Type} (mkEngine : ℕ → ℕ → Option E)
    (from_rate to_rate : ℕ) : Except AudioError (StreamingResampler E) :=
  if from_rate = 0 then .error .invalidSampleRate
  else if to_rate = 0 then .error .invalidSampleRate
  else if from_rate = to_rate then
    .ok { resampler := none, from_rate := from_rate, to_rate := to_rate,
          buffer := [], chunk_size := 1024 }
  else
    match mkEngine from_rate to_rate with
    | none => .error .resampleError
    | some eng =>
      .ok { resampler := some eng, from_rate := from_rate, to_rate := to_rate,
            buffer := [], chunk_size := 1024 }

/-- The `while self.buffer.len() >= self.chunk_size` drain loop of
`process_chunk`: repeatedly feed one full chunk to the engine,
accumulating output.  The extra `0 < chunk_size` guard only rules out the
diverging (never reached: `chunk_size` is always 1024) zero-size case. -/
def drainLoop {E : Type} (process : E → List ℝ → Option (E × List ℝ)) (chunk_size : ℕ)
    (eng : E) (buf out : List ℝ) : Option (E × List ℝ × List ℝ) :=
  if _h : 0 < chunk_size ∧ chunk_size ≤ buf.length then
    match process eng (buf.take chunk_size) with
    | none => none
    | some p => drainLoop process chunk_size p.1 (buf.drop chunk_size) (out ++ p.2)
  else some (eng, buf, out)
termination_by buf.length
decreasing_by simp only [List.length_drop]; omega

/-- Rust `StreamingResampler::process_chunk`. -/
def StreamingResampler.process_chunk {E : Type} (process : E → List ℝ → Option (E × List ℝ))
    (st : StreamingResampler E) (input : List ℝ) :
    Except AudioError (StreamingResampler E × List ℝ) :=
  if input.isEmpty then .ok (st, [])
  else if st.from_rate = st.to_rate then .ok (st, input)
  else
    match st.resampler with
    | none => .error .processingError
    | some eng =>
      match drainLoop process st.chunk_size eng (st.buffer ++ input) [] with
      | none => .error .processingError
      | some r => .ok ({ st with resampler := some r.1, buffer := r.2.1 }, r.2.2)

/-- Rust `StreamingResampler::finalize`: on the identity path, return the
leftover buffer unchanged and clear it; otherwise zero-pad and process the
remainder (`Vec::resize(chunk_size, 0.0)` truncates or extends to exactly
`chunk_size`), then drain the engine with `process_partial`. -/
def StreamingResampler.finalize {E : Type} (process : E → List ℝ → Option (E × List ℝ))
    (processPartial : E → Option (E × List ℝ)) (st : StreamingResampler E) :
    Except AudioError (StreamingResampler E × List ℝ) :=
  if st.from_rate = st.to_rate then .ok ({ st with buffer := [] }, st.buffer)
  else
    match st.resampler with
    | some eng =>
      if st.buffer.isEmpty then
        match processPartial eng with
        | none => .error .processingError
        | some r => .ok ({ st with resampler := some r.1 }, r.2)
      else
        match process eng (st.buffer.take st.chunk_size ++
            List.replicate (st.chunk_size - st.buffer.length) 0) with
        | none => .error .processingError
        | some r1 =>
          match processPartial r1.1 with
          | none => .error .processingError
          | some r2 => .ok ({ st with resampler := some r2.1, buffer := [] }, r1.2 ++ r2.2)
    | none => .ok (st, [])

/-! ## `StreamingTranscriber` session lifecycle
(`src/stt/src/streaming.rs`, lines 193–486)

`push_audio` succeeds exactly when `audio_sender` is `Some`, i.e. after
`start_streaming` and before a `stop_streaming` / `stop_streaming_async`;
it performs a non-blocking channel send and never touches the event
channel.  Only the lifecycle-relevant fields are modelled. -/

/-- Rust `StreamingEvent` (`src/stt/src/streaming.rs`, lines 61–74); the error
payload string is irrelevant here. -/
inductive StreamingEvent
  | transcription (text : ByteStr)
  | speechStart
  | speechEnd
  | silence
  | error
  deriving Repr, DecidableEq

/-- Errors of the stt crate relevant here.  `notRunning` stands for
`SttError::other` with the source's message (Chinese for
"transcriber not running"). -/
inductive SttError
  | notRunning
  deriving Repr, DecidableEq

/-- Lifecycle-relevant fields of `StreamingTranscriber`. -/
structure TranscriberState where
  event_sender_open : Bool
  audio_sender_open : Bool
  is_running : Bool
  deriving Repr, DecidableEq

/-- Rust `StreamingTranscriber::new`: both senders absent, not running. -/
def TranscriberState.new_ : TranscriberState :=
  { event_sender_open := false, audio_sender_open := false, is_running := false }

/-- The lifecycle operations a caller can perform on a transcriber.
`stop` covers both `stop_streaming` and `stop_streaming_async`, which
update the modelled fields identically. -/
inductive SessionOp
  | start
  | stop
  deriving Repr, DecidableEq

/-- Effect of `start_streaming` / `stop_streaming` on the modelled fields:
`start_streaming` installs both channel senders and sets the running flag;
both stop variants clear all three. -/
def applyOp (st : TranscriberState) : SessionOp → TranscriberState
  | .start => { st with event_sender_open := true, audio_sender_open := true, is_running := true }
  | .stop => { st with event_sender_open := false, audio_sender_open := false, is_running := false }

/-- State after a sequence of lifecycle calls on a fresh transcriber. -/
def applyOps (ops : List SessionOp) : TranscriberState :=
  ops.foldl applyOp TranscriberState.new_

/-- Rust `StreamingTranscriber::push_audio`: succeed iff `audio_sender` is
`Some`; the samples are sent (fire-and-forget) on the audio channel, and
no `StreamingEvent` is ever produced by this call.  Returns the result
together with the (always empty) list of events emitted. -/
def TranscriberState.push_audio (st : TranscriberState) (_samples : List ℝ) :
    Except SttError Unit × List StreamingEvent :=
  if st.audio_sender_open then (.ok (), []) else (.error .notRunning, [])

/-- Declarative "session started and not yet stopped": some `start` with no
later `stop` (equivalently, the last lifecycle call was a `start`). -/
def sessionActive (ops : List SessionOp) : Prop :=
  ∃ pre post, ops = pre ++ SessionOp.start :: post ∧ ∀ op ∈ post, op = SessionOp.start

/-! ## Concrete byte strings used in scenarios -/

/-- Bytes of `"he"` in UTF-8. -/
def heBytes : ByteStr := [104, 101]

/-- Bytes of `"hello"` in UTF-8. -/
def helloBytes : ByteStr := [104, 101, 108, 108, 111]

/-- Bytes of `"hello world"` in UTF-8. -/
def hwBytes : ByteStr := [104, 101, 108, 108, 111, 32, 119, 111, 114, 108, 100]

/-- Bytes of `"hello there"` in UTF-8. -/
def htBytes : ByteStr := [104, 101, 108, 108, 111, 32, 116, 104, 101, 114, 101]

/-! ## Theorems: aggregator step lemmas -/

/-- How one `push_and_confirm` call changes `confirmed_prefix`: its byte
length grows by exactly the length of the returned delta, and whenever the
new value extends the old one the old value followed by the delta is the
new value. -/
theorem push_and_confirm_confirmed_spec (st : StreamingAggregator) (x : ByteStr) :
    ((st.push_and_confirm x).1).confirmed.length
      = st.confirmed.length + ((((st.push_and_confirm x).2).map List.length).getD 0) ∧
    (st.confirmed <+: ((st.push_and_confirm x).1).confirmed →
      st.confirmed ++ (((st.push_and_confirm x).2).getD []) = ((st.push_and_confirm x).1).confirmed) := by
  simp only [StreamingAggregator.push_and_confirm]
  split <;> split
  case isTrue.isTrue => simp
  case isFalse.isTrue => simp
  all_goals
    split
    · dsimp only
      constructor
      · split
        · rename_i hempty
          simp at hempty
          omega
        · simp only [Option.map_some', Option.getD_some, List.length_drop]
          omega
      · intro hp
        obtain ⟨t, ht⟩ := hp
        split
        · rename_i hempty
          simp at hempty
          exfalso
          omega
        · simp only [Option.getD_some]
          rw [← ht, List.drop_left]
    · simp

/-- Field `confirmed_prefix` never shrinks across one call. -/
theorem push_and_confirm_confirmed_len_le (st : StreamingAggregator) (x : ByteStr) :
    st.confirmed.length ≤ ((st.push_and_confirm x).1).confirmed.length := by
  have h := (push_and_confirm_confirmed_spec st x).1
  omega

/-! ## Aggregator: session lemmas -/

/-- Running a session over `l1 ++ l2` is running it over `l1`, then over
`l2` from the resulting state, concatenating the recorded outputs. -/
theorem runAggFrom_append (l1 l2 : List ByteStr) : ∀ st : StreamingAggregator,
    runAggFrom st (l1 ++ l2)
      = ((runAggFrom (runAggFrom st l1).1 l2).1,
         (runAggFrom st l1).2 ++ (runAggFrom (runAggFrom st l1).1 l2).2) := by
  induction l1 with
  | nil => intro st; simp [runAggFrom]
  | cons h t ih => intro st; simp [runAggFrom, ih]

/-- Length of the flattened kept deltas, one cons at a time. -/
theorem flatten_filterMap_cons_len (o : Option ByteStr) (X : List (Option ByteStr)) :
    ((List.filterMap id (o :: X)).flatten).length
      = ((o.map List.length).getD 0) + ((List.filterMap id X).flatten).length := by
  cases o <;> simp

/-- Over a session, the total byte length of the emitted deltas accounts
exactly for the growth of `confirmed_prefix`. -/
theorem runAggFrom_flatten_length (l : List ByteStr) : ∀ st : StreamingAggregator,
    st.confirmed.length + ((((runAggFrom st l).2).filterMap id).flatten).length
      = ((runAggFrom st l).1).confirmed.length := by
  induction l with
  | nil => intro st; simp [runAggFrom]
  | cons h t ih =>
    intro st
    have hstep := (push_and_confirm_confirmed_spec st h).1
    have ihh := ih (st.push_and_confirm h).1
    simp only [runAggFrom, flatten_filterMap_cons_len]
    omega

/-- Field `confirmed_prefix` never shrinks over a session. -/
theorem runAggFrom_confirmed_len_le (l : List ByteStr) (st : StreamingAggregator) :
    st.confirmed.length ≤ ((runAggFrom st l).1).confirmed.length := by
  have h := runAggFrom_flatten_length l st
  omega

/-- If every call extends `confirmed_prefix` (rather than replacing it),
the concatenated deltas reconstruct the final `confirmed_prefix`. -/
theorem runAggFrom_concat (l : List ByteStr) : ∀ st : StreamingAggregator,
    (∀ i < l.length,
      ((runAggFrom st (l.take i)).1).confirmed <+: ((runAggFrom st (l.take (i+1))).1).confirmed) →
    st.confirmed ++ ((((runAggFrom st l).2).filterMap id).flatten) = ((runAggFrom st l).1).confirmed := by
  induction l with
  | nil => intro st _; simp [runAggFrom]
  | cons h t ih =>
    intro st hyp
    have h0 : st.confirmed <+: ((st.push_and_confirm h).1).confirmed := by
      have h1 := hyp 0 (by simp)
      simpa [runAggFrom] using h1
    have hstep := (push_and_confirm_confirmed_spec st h).2 h0
    have hyp2 : ∀ i < t.length,
        ((runAggFrom (st.push_and_confirm h).1 (t.take i)).1).confirmed <+:
          ((runAggFrom (st.push_and_confirm h).1 (t.take (i+1))).1).confirmed := by
      intro i hi
      have h2 := hyp (i+1) (by simpa using Nat.succ_lt_succ hi)
      simpa [runAggFrom, List.take_succ_cons] using h2
    have ihh := ih (st.push_and_confirm h).1 hyp2
    simp only [runAggFrom]
    cases hr : (st.push_and_confirm h).2 with
    | none =>
      rw [hr] at hstep
      simp only [Option.getD_none, List.append_nil] at hstep
      simp only [List.filterMap_cons, id_eq]
      rw [hstep]
      exact ihh
    | some d =>
      rw [hr] at hstep
      simp only [Option.getD_some] at hstep
      simp only [List.filterMap_cons, id_eq, List.flatten_cons]
      rw [← List.append_assoc, hstep]
      exact ihh

/-! ## Claims C3, C4, C5 -/

/-- Claim C4 counterexample: the sequence `"ab"`, `"ab"`, `"pqrs"`,
`"pqrt"` on an aggregator with `n = 2` first confirms `"ab"`, then
replaces `confirmed_prefix` by `"pqr"` — of which the previous value
`"ab"` is not a prefix.  So `confirmed_prefix` can be replaced with a
divergent value, refuting the claim as stated. -/
theorem aggregator_confirmed_divergence_cex :
    (aggState 2 [[97, 98], [97, 98], [112, 113, 114, 115]]).confirmed = [97, 98] ∧
    (aggState 2 [[97, 98], [97, 98], [112, 113, 114, 115], [112, 113, 114, 116]]).confirmed
      = [112, 113, 114] ∧
    ¬ [97, 98] <+: [112, 113, 114] := by
  refine ⟨by decide, by decide, by decide⟩

/-- Claim C4 (amended): over any session, the byte length of
`confirmed_prefix` is monotone — it is never shortened.  (As the
counterexample shows, the stronger claim that each new value extends the
previous one is false: only the length comparison is checked by the code.) -/
theorem aggregator_confirmed_length_mono (n : ℕ) (hyps : List ByteStr) (i j : ℕ) (hij : i ≤ j) :
    ((aggState n (hyps.take i)).confirmed).length
      ≤ ((aggState n (hyps.take j)).confirmed).length := by
  have h1 : (hyps.take j).take i = hyps.take i := by
    rw [List.take_take, Nat.min_eq_left hij]
  have heq : runAggFrom (StreamingAggregator.new n) (hyps.take j)
      = runAggFrom (StreamingAggregator.new n) ((hyps.take j).take i ++ (hyps.take j).drop i) := by
    rw [List.take_append_drop]
  unfold aggState
  rw [heq, runAggFrom_append, h1]
  exact runAggFrom_confirmed_len_le _ _

/-- Claim C4 witness: a concrete instantiation of the monotonicity
theorem. -/
theorem aggregator_confirmed_length_mono_witness :
    1 ≤ 3 ∧
    ((aggState 3 ([heBytes, helloBytes, hwBytes].take 1)).confirmed).length
      ≤ ((aggState 3 ([heBytes, helloBytes, hwBytes].take 3)).confirmed).length :=
  ⟨by decide, aggregator_confirmed_length_mono 3 [heBytes, helloBytes, hwBytes] 1 3 (by decide)⟩

/-- Claim C3 counterexample: with `n = 3` and the hypothesis history of
the repository's own test (`"hello world"` three times, then
`"hello there"` three times), the concatenation of the emitted deltas is
`"hello world"`, while the LCP of the entire history is `"hello "` — the
two differ, refuting the claim as stated. -/
theorem aggregator_deltas_vs_history_lcp_cex :
    (aggDeltas 3 [hwBytes, hwBytes, hwBytes, htBytes, htBytes, htBytes]).flatten = hwBytes ∧
    longestCommonPrefixBytes [hwBytes, hwBytes, hwBytes, htBytes, htBytes, htBytes]
      = [104, 101, 108, 108, 111, 32] ∧
    (aggDeltas 3 [hwBytes, hwBytes, hwBytes, htBytes, htBytes, htBytes]).flatten
      ≠ longestCommonPrefixBytes [hwBytes, hwBytes, hwBytes, htBytes, htBytes, htBytes] := by
  refine ⟨by decide, by decide, by decide⟩

/-- Claim C3 (amended): over any session, the concatenation of the
emitted deltas has exactly the byte length of the final
`confirmed_prefix`; and whenever every confirmed update extends the
previous confirmed value (rather than replacing it), the concatenation
equals the final `confirmed_prefix`.  (It does not in general equal the
LCP of the whole history, as the counterexample shows.) -/
theorem aggregator_deltas_concat (n : ℕ) (hyps : List ByteStr) :
    ((aggDeltas n hyps).flatten).length = ((aggState n hyps).confirmed).length ∧
    ((∀ i < hyps.length,
        ((aggState n (hyps.take i)).confirmed) <+: ((aggState n (hyps.take (i + 1))).confirmed)) →
      (aggDeltas n hyps).flatten = (aggState n hyps).confirmed) := by
  constructor
  · have h := runAggFrom_flatten_length hyps (StreamingAggregator.new n)
    simpa [aggDeltas, aggTrace, aggState, StreamingAggregator.new] using h
  · intro hyp
    have h := runAggFrom_concat hyps (StreamingAggregator.new n) hyp
    simpa [aggDeltas, aggTrace, aggState, StreamingAggregator.new] using h

/-- Claim C3 witness: on the convergent scenario history the deltas
concatenate to the final confirmed prefix. -/
theorem aggregator_deltas_concat_witness :
    (aggDeltas 3 [heBytes, helloBytes, hwBytes]).flatten
      = (aggState 3 [heBytes, helloBytes, hwBytes]).confirmed :=
  (aggregator_deltas_concat 3 [heBytes, helloBytes, hwBytes]).2 (by decide)

/-- Claim C5: feeding `"he"`, `"hello"`, `"hello world"` into a fresh
aggregator with `n = 3` returns `None`, `None`, then `Some("he")` (the
LCP of the three strings, with nothing previously confirmed). -/
theorem aggregator_convergence_scenario :
    aggTrace 3 [heBytes, helloBytes, hwBytes] = [none, none, some heBytes] := by
  decide

/-! ## `AudioBuffer`: trailing-window lemmas (Claim C1) -/

/-- One `push_samples` loop iteration preserves the ring-buffer
trailing-window invariant: if the buffer holds the last
`min(capacity, pushed)` samples of the pushed history, it still does after
one more sample (for any positive capacity). -/
theorem pushOne_window (b : AudioBuffer) (hist : List ℝ) (s : ℝ)
    (hcap : 1 ≤ b.max_samples)
    (hs : b.samples = hist.drop (hist.length - b.max_samples))
    (hl : b.samples.length = min b.max_samples hist.length) :
    (b.pushOne s).samples = (hist ++ [s]).drop ((hist ++ [s]).length - b.max_samples) ∧
    (b.pushOne s).samples.length = min b.max_samples (hist ++ [s]).length ∧
    (b.pushOne s).max_samples = b.max_samples ∧
    (b.pushOne s).config = b.config := by
  unfold AudioBuffer.pushOne
  by_cases hfull : b.max_samples ≤ b.samples.length
  · have hcl : b.max_samples ≤ hist.length := by omega
    simp only [if_pos hfull]
    refine ⟨?_, ?_, trivial, trivial⟩
    · rw [hs, List.tail_drop]
      have h1 : (hist ++ [s]).length - b.max_samples = hist.length - b.max_samples + 1 := by
        simp only [List.length_append, List.length_cons, List.length_nil]
        omega
      rw [h1, List.drop_append_of_le_length (by omega)]
    · simp only [List.length_append, List.length_tail, List.length_cons, List.length_nil, hl]
      omega
  · simp only [if_neg hfull]
    refine ⟨?_, ?_, trivial, trivial⟩
    · rw [hs]
      have h0 : hist.length - b.max_samples = 0 := by omega
      have h1 : (hist ++ [s]).length - b.max_samples = 0 := by
        simp only [List.length_append, List.length_cons, List.length_nil]
        omega
      rw [h0, h1]
      simp
    · simp only [List.length_append, List.length_cons, List.length_nil, hl]
      omega

/-- The trailing-window invariant is preserved by a whole `push_samples`
call, in any chunking. -/
theorem push_samples_window (l : List ℝ) : ∀ (b : AudioBuffer) (hist : List ℝ),
    1 ≤ b.max_samples →
    b.samples = hist.drop (hist.length - b.max_samples) →
    b.samples.length = min b.max_samples hist.length →
    (b.push_samples l).samples = (hist ++ l).drop ((hist ++ l).length - b.max_samples) ∧
    (b.push_samples l).samples.length = min b.max_samples (hist ++ l).length ∧
    (b.push_samples l).max_samples = b.max_samples ∧
    (b.push_samples l).config = b.config := by
  induction l with
  | nil =>
    intro b hist hcap hs hl
    exact ⟨by simpa using hs, by simpa using hl, rfl, rfl⟩
  | cons s l ih =>
    intro b hist hcap hs hl
    have hp := pushOne_window b hist s hcap hs hl
    have hsamp := hp.1
    have hlen := hp.2.1
    rw [← hp.2.2.1] at hsamp hlen
    have hrec := ih (b.pushOne s) (hist ++ [s]) (by rw [hp.2.2.1]; exact hcap) hsamp hlen
    rw [hp.2.2.1] at hrec
    rw [List.append_assoc, List.singleton_append] at hrec
    have hps : b.push_samples (s :: l) = (b.pushOne s).push_samples l := rfl
    rw [hps]
    exact ⟨hrec.1, hrec.2.1, hrec.2.2.1, hrec.2.2.2.trans hp.2.2.2⟩

/-- Folding `push_samples` over a list of chunks is one `push_samples`
of the concatenation. -/
theorem foldl_push_samples_flatten (chunks : List (List ℝ)) : ∀ b : AudioBuffer,
    chunks.foldl AudioBuffer.push_samples b = b.push_samples chunks.flatten := by
  induction chunks with
  | nil => intro b; rfl
  | cons c cs ih =>
    intro b
    simp only [List.foldl_cons, List.flatten_cons]
    rw [ih]
    unfold AudioBuffer.push_samples
    rw [List.foldl_append]

/-- Claim C1: for every sequence of `push_samples` calls on a fresh
`AudioBuffer` with capacity `sample_rate * buffer_duration > 0`, in any
chunking, the buffer contents equal the trailing window of everything
pushed — the last `min(capacity, total-pushed)` samples, oldest evicted
first — and in particular the buffer never holds more than `capacity`
samples. -/
theorem audioBuffer_push_trailing_window (sample_rate dur : ℕ)
    (hcap : 0 < sample_rate * dur) (chunks : List (List ℝ)) :
    (chunks.foldl AudioBuffer.push_samples (AudioBuffer.new ⟨sample_rate⟩ dur)).samples
      = chunks.flatten.drop (chunks.flatten.length - sample_rate * dur) ∧
    (chunks.foldl AudioBuffer.push_samples (AudioBuffer.new ⟨sample_rate⟩ dur)).samples.length
      = min (sample_rate * dur) chunks.flatten.length ∧
    (chunks.foldl AudioBuffer.push_samples (AudioBuffer.new ⟨sample_rate⟩ dur)).samples.length
      ≤ sample_rate * dur := by
  rw [foldl_push_samples_flatten]
  have h := push_samples_window chunks.flatten (AudioBuffer.new ⟨sample_rate⟩ dur) []
    hcap (by simp [AudioBuffer.new]) (by simp [AudioBuffer.new])
  have h1 := h.1
  have h2 := h.2.1
  simp only [List.nil_append] at h1 h2
  refine ⟨h1, h2, ?_⟩
  rw [h2]
  exact Nat.min_le_left _ _

/-- Claim C1 witness: the buffer-eviction scenario — 96000 samples pushed
in one chunk into a fresh 5-second, 16 kHz buffer (capacity 80000) leave
exactly the last 80000 samples (`drop 16000` of the input). -/
theorem audioBuffer_push_trailing_window_witness :
    0 < 16000 * 5 ∧
    (([List.replicate 96000 (0 : ℝ)]).foldl AudioBuffer.push_samples
        (AudioBuffer.new ⟨16000⟩ 5)).samples
      = ([List.replicate 96000 (0 : ℝ)]).flatten.drop
          (([List.replicate 96000 (0 : ℝ)]).flatten.length - 16000 * 5) ∧
    (([List.replicate 96000 (0 : ℝ)]).foldl AudioBuffer.push_samples
        (AudioBuffer.new ⟨16000⟩ 5)).samples.length
      = min (16000 * 5) ([List.replicate 96000 (0 : ℝ)]).flatten.length :=
  ⟨by norm_num,
   (audioBuffer_push_trailing_window 16000 5 (by norm_num) [List.replicate 96000 (0 : ℝ)]).1,
   (audioBuffer_push_trailing_window 16000 5 (by norm_num) [List.replicate 96000 (0 : ℝ)]).2.1⟩

/-! ## `SimpleVad`: RMS facts (Claim C8) -/

/-- RMS of a nonempty constant input is the absolute amplitude. -/
theorem calculate_rms_replicate (v : SimpleVad) (c : ℝ) (n : ℕ) (hn : 0 < n) :
    v.calculate_rms (List.replicate n c) = |c| := by
  unfold SimpleVad.calculate_rms
  obtain ⟨m, rfl⟩ : ∃ m, n = m + 1 := ⟨n - 1, by omega⟩
  rw [if_neg (by simp [List.replicate_succ])]
  rw [List.map_replicate, List.sum_replicate, List.length_replicate]
  rw [nsmul_eq_mul]
  rw [mul_div_cancel_left₀ _ (by positivity)]
  exact Real.sqrt_mul_self_eq_abs c

/-- Claim C8 counterexample: with a negative configured threshold (allowed
by `SimpleVad::new_with_sample_rate`, which validates nothing), an
all-zero input yields `detect_speech = true`, because `rms = 0 >
threshold`.  This refutes the claim that an all-zero input always yields
`is_speech = false`. -/
theorem vad_zero_input_negative_threshold_cex :
    SimpleVad.detect_speech (SimpleVad.new_with_sample_rate (-1) 16000) [0, 0, 0] := by
  have e : ([0, 0, 0] : List ℝ) = List.replicate 3 0 := rfl
  have h := calculate_rms_replicate (SimpleVad.new_with_sample_rate (-1) 16000) 0 3 (by norm_num)
  unfold SimpleVad.detect_speech
  rw [if_neg (by simp)]
  rw [e, h]
  simp [SimpleVad.new_with_sample_rate]

/-- Claim C8 (amended): `detect_speech` holds iff the input is nonempty
and its RMS strictly exceeds the configured threshold (`>`, not `≥`).
Consequently, provided the configured threshold is nonnegative, all-zero
input of any length (including empty) never detects speech; and a
constant-amplitude input has RMS `|c|`, so whenever `|c|` strictly exceeds
the threshold, speech is detected. -/
theorem vad_detect_speech_characterization (threshold : ℝ) (rate : ℕ) :
    (∀ samples : List ℝ,
      SimpleVad.detect_speech (SimpleVad.new_with_sample_rate threshold rate) samples ↔
        (samples ≠ [] ∧
          SimpleVad.calculate_rms (SimpleVad.new_with_sample_rate threshold rate) samples
            > threshold)) ∧
    (0 ≤ threshold → ∀ n : ℕ,
      ¬ SimpleVad.detect_speech (SimpleVad.new_with_sample_rate threshold rate)
          (List.replicate n 0)) ∧
    (∀ (c : ℝ) (n : ℕ), 0 < n →
      SimpleVad.calculate_rms (SimpleVad.new_with_sample_rate threshold rate)
          (List.replicate n c) = |c| ∧
      (|c| > threshold →
        SimpleVad.detect_speech (SimpleVad.new_with_sample_rate threshold rate)
          (List.replicate n c))) := by
  refine ⟨?_, ?_, ?_⟩
  · intro samples
    cases samples with
    | nil => simp [SimpleVad.detect_speech]
    | cons a l => simp [SimpleVad.detect_speech, SimpleVad.new_with_sample_rate]
  · intro hth n
    cases n with
    | zero => simp [SimpleVad.detect_speech]
    | succ m =>
      have h := calculate_rms_replicate (SimpleVad.new_with_sample_rate threshold rate) 0
        (m + 1) (Nat.succ_pos m)
      unfold SimpleVad.detect_speech
      rw [if_neg (by simp [List.replicate_succ])]
      rw [h]
      simp [SimpleVad.new_with_sample_rate]
      linarith
  · intro c n hn
    have h := calculate_rms_replicate (SimpleVad.new_with_sample_rate threshold rate) c n hn
    refine ⟨h, ?_⟩
    intro habs
    obtain ⟨m, rfl⟩ : ∃ m, n = m + 1 := ⟨n - 1, by omega⟩
    unfold SimpleVad.detect_speech
    rw [if_neg (by simp [List.replicate_succ])]
    rw [h]
    simpa [SimpleVad.new_with_sample_rate] using habs

/-- Claim C8 witness: with threshold `0` (nonnegative) at 16 kHz, five
zero samples are not speech, while five samples of amplitude `1` are. -/
theorem vad_detect_speech_characterization_witness :
    (0 : ℝ) ≤ 0 ∧
    ¬ SimpleVad.detect_speech (SimpleVad.new_with_sample_rate 0 16000) (List.replicate 5 0) ∧
    SimpleVad.detect_speech (SimpleVad.new_with_sample_rate 0 16000) (List.replicate 5 1) :=
  ⟨le_refl 0,
   (vad_detect_speech_characterization 0 16000).2.1 (le_refl 0) 5,
   ((vad_detect_speech_characterization 0 16000).2.2 1 5 (by norm_num)).2
     (by rw [abs_one]; norm_num)⟩

/-! ## `StreamingResampler`: identity path and empty input (Claims C7, C10) -/

/-- Claim C7: with `source_rate == target_rate`, `process_chunk` echoes
every input unchanged and leaves the state untouched, `finalize` returns
exactly the buffered remainder and clears it, and construction at equal
nonzero rates yields the engine-less pass-through state — the abstract
engine operations are never consulted (they are universally quantified). -/
theorem streamingResampler_identity {E : Type} (process : E → List ℝ → Option (E × List ℝ))
    (processPartial : E → Option (E × List ℝ)) (st : StreamingResampler E) (input : List ℝ)
    (hrate : st.from_rate = st.to_rate) :
    StreamingResampler.process_chunk process st input = .ok (st, input) ∧
    StreamingResampler.finalize process processPartial st
      = .ok ({ st with buffer := [] }, st.buffer) ∧
    (∀ (mkEngine : ℕ → ℕ → Option E) (r : ℕ), r ≠ 0 →
      StreamingResampler.new_ mkEngine r r
        = .ok { resampler := none, from_rate := r, to_rate := r,
                buffer := [], chunk_size := 1024 }) := by
  refine ⟨?_, ?_, ?_⟩
  · unfold StreamingResampler.process_chunk
    cases input with
    | nil => simp
    | cons a l => rw [if_neg (by simp), if_pos hrate]
  · unfold StreamingResampler.finalize
    rw [if_pos hrate]
  · intro mkEngine r hr
    unfold StreamingResampler.new_
    rw [if_neg hr, if_neg hr, if_pos rfl]

/-- Claim C7 witness: a concrete 16 kHz → 16 kHz resampler with remainder
`[3]` echoes `[1, 2]` and flushes `[3]`. -/
theorem streamingResampler_identity_witness :
    StreamingResampler.process_chunk (E := Unit) (fun e c => some (e, c))
        ⟨none, 16000, 16000, [3], 1024⟩ [1, 2]
      = .ok (⟨none, 16000, 16000, [3], 1024⟩, [1, 2]) ∧
    StreamingResampler.finalize (E := Unit) (fun e c => some (e, c)) (fun e => some (e, []))
        ⟨none, 16000, 16000, [3], 1024⟩
      = .ok (⟨none, 16000, 16000, [], 1024⟩, [3]) ∧
    StreamingResampler.new_ (E := Unit) (fun _ _ => none) 16000 16000
      = .ok ⟨none, 16000, 16000, [], 1024⟩ := by
  have h := streamingResampler_identity (E := Unit) (fun e c => some (e, c))
    (fun e => some (e, [])) ⟨none, 16000, 16000, [3], 1024⟩ [1, 2] rfl
  exact ⟨h.1, h.2.1, h.2.2 (fun _ _ => none) 16000 (by norm_num)⟩

/-- Claim C10: `process_chunk` on an empty input slice returns `Ok` with
empty output and leaves the whole resampler state — leftover buffer and
inner engine included — unchanged, whatever the state and whatever the
engine does. -/
theorem streamingResampler_empty_chunk_noop {E : Type}
    (process : E → List ℝ → Option (E × List ℝ)) (st : StreamingResampler E) :
    StreamingResampler.process_chunk process st [] = .ok (st, []) := rfl

/-! ## `StreamingTranscriber` lifecycle (Claim C9) -/

/-- The audio sender is installed exactly when the most recent lifecycle
call is `start_streaming`. -/
theorem applyOps_audio_open (ops : List SessionOp) :
    (applyOps ops).audio_sender_open = true ↔ ops.getLast? = some SessionOp.start := by
  induction ops using List.reverseRecOn with
  | nil => simp [applyOps, TranscriberState.new_]
  | append_singleton l op ih =>
    unfold applyOps
    rw [List.foldl_append]
    cases op <;> simp [applyOp, List.getLast?_concat]

/-- Having the last lifecycle call be `start` is the same as some `start`
call has no later `stop`". -/
theorem getLast_start_iff_sessionActive (ops : List SessionOp) :
    ops.getLast? = some SessionOp.start ↔ sessionActive ops := by
  constructor
  · intro h
    have hne : ops ≠ [] := by rintro rfl; simp at h
    have hl := List.dropLast_append_getLast hne
    have hg : ops.getLast hne = SessionOp.start := by
      rw [List.getLast?_eq_getLast _ hne] at h
      exact Option.some.inj h
    refine ⟨ops.dropLast, [], ?_, by simp⟩
    conv_lhs => rw [← hl]
    rw [hg]
  · rintro ⟨pre, post, rfl, hpost⟩
    rcases List.eq_nil_or_concat post with hnil | ⟨l2, a, rfl⟩
    · subst hnil
      exact List.getLast?_concat _
    · have ha : a = SessionOp.start := hpost a (by simp)
      subst ha
      rw [List.concat_eq_append]
      rw [show pre ++ SessionOp.start :: (l2 ++ [SessionOp.start])
            = (pre ++ SessionOp.start :: l2) ++ [SessionOp.start] by simp]
      exact List.getLast?_concat _

/-- Claim C9: after any sequence of lifecycle calls on a fresh
transcriber, `push_audio` returns `Ok` iff the session has been started
and not stopped since; otherwise it returns the "not running" error
synchronously — and in either case it emits no event on the event
stream. -/
theorem push_audio_ok_iff_active (ops : List SessionOp) (samples : List ℝ) :
    (((applyOps ops).push_audio samples).1 = .ok () ↔ sessionActive ops) ∧
    (¬ sessionActive ops →
      ((applyOps ops).push_audio samples).1 = .error SttError.notRunning) ∧
    ((applyOps ops).push_audio samples).2 = [] := by
  have h := applyOps_audio_open ops
  have h2 := getLast_start_iff_sessionActive ops
  unfold TranscriberState.push_audio
  by_cases hopen : (applyOps ops).audio_sender_open = true
  · rw [if_pos hopen]
    refine ⟨iff_of_true rfl (h2.mp (h.mp hopen)), ?_, rfl⟩
    intro hno
    exact absurd (h2.mp (h.mp hopen)) hno
  · rw [if_neg hopen]
    refine ⟨?_, fun _ => rfl, rfl⟩
    constructor
    · intro habs
      exact absurd habs (by simp)
    · intro hact
      exact absurd (h.mpr (h2.mpr hact)) hopen

/-- Claim C9 witness: on a never-started transcriber, `push_audio` fails
with the "not running" error. -/
theorem push_audio_ok_iff_active_witness :
    ¬ sessionActive [] ∧
    ((applyOps []).push_audio []).1 = .error SttError.notRunning :=
  have hno : ¬ sessionActive [] := by
    rintro ⟨pre, post, habs, -⟩
    have hlen := congrArg List.length habs
    simp only [List.length_nil, List.length_append, List.length_cons] at hlen
    omega
  ⟨hno, (push_audio_ok_iff_active [] []).2.1 hno⟩

/-! ## Orchestrator emission with `n ≤ 1` (Claim C6) -/

/-- Claim C6 counterexample: with `local_agreement_n = 1`, the hypotheses
`"abc"` then `"abd"` produce the events `"abc"`, `"ab"`: the second
non-empty hypothesis is replaced by the aggregator's confirmed delta
`"ab"` (the internal aggregator is clamped to `n = 2` and still runs), so
its event text is not the hypothesis text. -/
theorem orchestrator_passthrough_cex :
    emitTrace 1 [[97, 98, 99], [97, 98, 100]] = [[97, 98, 99], [97, 98]] ∧
    ([97, 98] : ByteStr) ≠ [97, 98, 100] := by
  refine ⟨by decide, by decide⟩

/-! ## UTF-8 round-trip lemmas -/

theorem utf8EncodeChar_ne_nil (c : ℕ) : utf8EncodeChar c ≠ [] := by
  unfold utf8EncodeChar
  repeat' split
  all_goals simp

theorem utf8Encode_cons (c : ℕ) (t : List ℕ) :
    utf8Encode (c :: t) = utf8EncodeChar c ++ utf8Encode t := by
  simp [utf8Encode]

theorem utf8Encode_eq_nil_iff (t : List ℕ) : utf8Encode t = [] ↔ t = [] := by
  cases t with
  | nil => simp [utf8Encode]
  | cons c t =>
    rw [utf8Encode_cons]
    simp [utf8EncodeChar_ne_nil]

theorem utf8DecodeAux_nil (f : ℕ) : utf8DecodeAux f [] = some [] := by
  cases f <;> rfl

theorem utf8DecodeAux_cons (f : ℕ) (b : ℕ) (rest : List ℕ) :
    utf8DecodeAux (f + 1) (b :: rest)
      = match utf8DecodeChar (b :: rest) with
        | none => none
        | some p => (utf8DecodeAux f p.2).map (p.1 :: ·) := rfl

theorem utf8DecodeChar_length {l : List ℕ} {p : ℕ × List ℕ} (h : utf8DecodeChar l = some p) :
    p.2.length < l.length := by
  match l with
  | [] => simp [utf8DecodeChar] at h
  | b :: rest =>
    simp only [utf8DecodeChar] at h
    repeat' split at h
    all_goals
      first
        | exact Option.noConfusion h
        | (injection h with h2
           subst h2
           dsimp only
           simp only [List.length_cons]
           omega)

theorem utf8DecodeAux_fuel : ∀ (f1 f2 : ℕ) (l : List ℕ), l.length ≤ f1 → l.length ≤ f2 →
    utf8DecodeAux f1 l = utf8DecodeAux f2 l := by
  intro f1
  induction f1 with
  | zero =>
    intro f2 l h1 h2
    have hl : l = [] := List.length_eq_zero.mp (Nat.le_zero.mp h1)
    subst hl
    rw [utf8DecodeAux_nil, utf8DecodeAux_nil]
  | succ f ih =>
    intro f2 l h1 h2
    cases l with
    | nil => rw [utf8DecodeAux_nil, utf8DecodeAux_nil]
    | cons b rest =>
      cases f2 with
      | zero => simp at h2
      | succ f2 =>
        rw [utf8DecodeAux_cons, utf8DecodeAux_cons]
        cases hd : utf8DecodeChar (b :: rest) with
        | none => rfl
        | some p =>
          have hlen := utf8DecodeChar_length hd
          simp only [List.length_cons] at h1 h2 hlen
          dsimp only
          rw [ih f2 p.2 (by omega) (by omega)]

theorem utf8Decode_cons (b : ℕ) (rest : List ℕ) :
    utf8Decode (b :: rest)
      = match utf8DecodeChar (b :: rest) with
        | none => none
        | some p => (utf8Decode p.2).map (p.1 :: ·) := by
  unfold utf8Decode
  rw [show (b :: rest).length = rest.length + 1 from rfl, utf8DecodeAux_cons]
  cases hd : utf8DecodeChar (b :: rest) with
  | none => rfl
  | some p =>
    have hlen := utf8DecodeChar_length hd
    simp only [List.length_cons] at hlen
    dsimp only
    rw [utf8DecodeAux_fuel rest.length p.2.length p.2 (by omega) (le_refl _)]

theorem utf8DecodeChar_valid {l : List ℕ} {p : ℕ × List ℕ} (h : utf8DecodeChar l = some p) :
    ValidChar p.1 := by
  match l with
  | [] => simp [utf8DecodeChar] at h
  | b :: rest =>
    simp only [utf8DecodeChar] at h
    repeat' split at h
    all_goals
      first
        | exact Option.noConfusion h
        | (injection h with h2
           subst h2
           dsimp only
           unfold ValidChar
           try unfold isCont at *
           omega)

theorem utf8DecodeAux_valid : ∀ (f : ℕ) (l ds : List ℕ), utf8DecodeAux f l = some ds →
    ∀ c ∈ ds, ValidChar c := by
  intro f
  induction f with
  | zero =>
    intro l ds h c hc
    cases l with
    | nil =>
      rw [utf8DecodeAux_nil] at h
      obtain rfl : ([] : List ℕ) = ds := Option.some.inj h
      simp at hc
    | cons b rest => exact Option.noConfusion h
  | succ f ih =>
    intro l ds h c hc
    cases l with
    | nil =>
      rw [utf8DecodeAux_nil] at h
      obtain rfl : ([] : List ℕ) = ds := Option.some.inj h
      simp at hc
    | cons b rest =>
      rw [utf8DecodeAux_cons] at h
      cases hd : utf8DecodeChar (b :: rest) with
      | none => rw [hd] at h; exact Option.noConfusion h
      | some p =>
        rw [hd] at h
        dsimp only at h
        obtain ⟨y, hy1, hy2⟩ := Option.map_eq_some'.mp h
        rw [← hy2] at hc
        rcases List.mem_cons.mp hc with rfl | hcy
        · exact utf8DecodeChar_valid hd
        · exact ih p.2 y hy1 c hcy

theorem utf8Decode_valid {l ds : List ℕ} (h : utf8Decode l = some ds) :
    ∀ c ∈ ds, ValidChar c :=
  utf8DecodeAux_valid l.length l ds h

theorem utf8Decode_ne_nil {s ds : List ℕ} (hs : s ≠ []) (h : utf8Decode s = some ds) :
    ds ≠ [] := by
  match s, hs with
  | b :: rest, _ =>
    rw [utf8Decode_cons] at h
    cases hd : utf8DecodeChar (b :: rest) with
    | none => rw [hd] at h; exact Option.noConfusion h
    | some p =>
      rw [hd] at h
      dsimp only at h
      obtain ⟨y, hy1, hy2⟩ := Option.map_eq_some'.mp h
      rw [← hy2]
      simp

theorem utf8Decode_cont_none (b : ℕ) (s : List ℕ) (hb1 : 0x80 ≤ b) (hb2 : b < 0xC2) :
    utf8Decode (b :: s) = none := by
  rw [utf8Decode_cons]
  have hd : utf8DecodeChar (b :: s) = none := by
    simp only [utf8DecodeChar]
    rw [if_neg (by omega), if_pos (by omega)]
  rw [hd]

theorem utf8DecodeChar_encodeChar (c : ℕ) (hc : ValidChar c) (s : List ℕ) :
    utf8DecodeChar (utf8EncodeChar c ++ s) = some (c, s) := by
  unfold ValidChar at hc
  unfold utf8EncodeChar
  by_cases h1 : c < 0x80
  · rw [if_pos h1]
    simp only [List.cons_append, List.nil_append, utf8DecodeChar]
    rw [if_pos h1]
  · by_cases h2 : c < 0x800
    · rw [if_neg h1, if_pos h2]
      simp only [List.cons_append, List.nil_append, utf8DecodeChar]
      rw [if_neg (by omega), if_neg (by omega), if_pos (by omega),
        if_pos (by unfold isCont; omega)]
      have he : (0xC0 + c / 64 - 0xC0) * 64 + (0x80 + c % 64 - 0x80) = c := by omega
      rw [he]
    · by_cases h3 : c < 0x10000
      · rw [if_neg h1, if_neg h2, if_pos h3]
        simp only [List.cons_append, List.nil_append, utf8DecodeChar]
        rw [if_neg (by omega), if_neg (by omega), if_neg (by omega), if_pos (by omega),
          if_pos (by unfold isCont; omega)]
        have he : (0xE0 + c / 4096 - 0xE0) * 4096 + (0x80 + c / 64 % 64 - 0x80) * 64 +
            (0x80 + c % 64 - 0x80) = c := by omega
        rw [he]
      · rw [if_neg h1, if_neg h2, if_neg h3]
        simp only [List.cons_append, List.nil_append, utf8DecodeChar]
        rw [if_neg (by omega), if_neg (by omega), if_neg (by omega), if_neg (by omega),
          if_pos (by omega), if_pos (by unfold isCont; omega)]
        have he : (0xF0 + c / 0x40000 - 0xF0) * 0x40000 + (0x80 + c / 4096 % 64 - 0x80) * 4096 +
            (0x80 + c / 64 % 64 - 0x80) * 64 + (0x80 + c % 64 - 0x80) = c := by omega
        rw [he]

theorem utf8Decode_encodeChar_append (c : ℕ) (hc : ValidChar c) (s : List ℕ) :
    utf8Decode (utf8EncodeChar c ++ s) = (utf8Decode s).map (c :: ·) := by
  obtain ⟨b, r, hb⟩ : ∃ b r, utf8EncodeChar c = b :: r := by
    cases h : utf8EncodeChar c with
    | nil => exact absurd h (utf8EncodeChar_ne_nil c)
    | cons b r => exact ⟨b, r, rfl⟩
  rw [hb, List.cons_append, utf8Decode_cons, ← List.cons_append, ← hb,
    utf8DecodeChar_encodeChar c hc s]

theorem utf8Decode_encode (t : List ℕ) (h : ∀ c ∈ t, ValidChar c) :
    utf8Decode (utf8Encode t) = some t := by
  induction t with
  | nil => rfl
  | cons c t ih =>
    rw [utf8Encode_cons, utf8Decode_encodeChar_append c (h c (by simp)),
      ih (fun x hx => h x (by simp [hx]))]
    rfl

theorem utf8EncodeChar_drop_cont (c k : ℕ) (hk0 : 0 < k)
    (hk : k < (utf8EncodeChar c).length) :
    ∃ b r, (utf8EncodeChar c).drop k = b :: r ∧ 0x80 ≤ b ∧ b < 0xC2 := by
  unfold utf8EncodeChar at hk ⊢
  by_cases h1 : c < 0x80
  · rw [if_pos h1] at hk
    simp at hk
    omega
  · by_cases h2 : c < 0x800
    · rw [if_neg h1, if_pos h2] at hk ⊢
      simp at hk
      obtain rfl : k = 1 := by omega
      exact ⟨0x80 + c % 64, [], rfl, by omega, by omega⟩
    · by_cases h3 : c < 0x10000
      · rw [if_neg h1, if_neg h2, if_pos h3] at hk ⊢
        simp at hk
        have hk12 : k = 1 ∨ k = 2 := by omega
        rcases hk12 with rfl | rfl
        · exact ⟨0x80 + c / 64 % 64, [0x80 + c % 64], rfl, by omega, by omega⟩
        · exact ⟨0x80 + c % 64, [], rfl, by omega, by omega⟩
      · rw [if_neg h1, if_neg h2, if_neg h3] at hk ⊢
        simp at hk
        have hk123 : k = 1 ∨ k = 2 ∨ k = 3 := by omega
        rcases hk123 with rfl | rfl | rfl
        · exact ⟨0x80 + c / 4096 % 64, [0x80 + c / 64 % 64, 0x80 + c % 64], rfl,
            by omega, by omega⟩
        · exact ⟨0x80 + c / 64 % 64, [0x80 + c % 64], rfl, by omega, by omega⟩
        · exact ⟨0x80 + c % 64, [], rfl, by omega, by omega⟩

theorem utf8Decode_drop_encode : ∀ (t : List ℕ), (∀ c ∈ t, ValidChar c) →
    ∀ (k : ℕ) (ds : List ℕ), utf8Decode ((utf8Encode t).drop k) = some ds →
    ∃ j, ds = t.drop j := by
  intro t
  induction t with
  | nil =>
    intro _ k ds h
    refine ⟨0, ?_⟩
    have he : utf8Encode ([] : List ℕ) = [] := rfl
    rw [he, List.drop_nil] at h
    have h0 : utf8Decode ([] : List ℕ) = some [] := rfl
    rw [h0] at h
    exact (Option.some.inj h).symm
  | cons c t ih =>
    intro hval k ds h
    have hvc : ValidChar c := hval c (by simp)
    have hvt : ∀ x ∈ t, ValidChar x := fun x hx => hval x (by simp [hx])
    rw [utf8Encode_cons] at h
    by_cases hk0 : k = 0
    · subst hk0
      rw [List.drop_zero, utf8Decode_encodeChar_append c hvc, utf8Decode_encode t hvt] at h
      obtain rfl : c :: t = ds := Option.some.inj h
      exact ⟨0, rfl⟩
    · by_cases hklt : k < (utf8EncodeChar c).length
      · obtain ⟨b, r, hdrop, hb1, hb2⟩ := utf8EncodeChar_drop_cont c k (by omega) hklt
        rw [List.drop_append_of_le_length (by omega), hdrop, List.cons_append,
          utf8Decode_cont_none b _ hb1 hb2] at h
        exact Option.noConfusion h
      · rw [List.drop_append_eq_append_drop,
          List.drop_eq_nil_of_le (by omega), List.nil_append] at h
        obtain ⟨j, hj⟩ := ih hvt (k - (utf8EncodeChar c).length) ds h
        exact ⟨j + 1, by simp [hj]⟩

/-! ## Trimming lemmas -/

theorem head_dropWhile_not (p : ℕ → Bool) : ∀ (l : List ℕ) (a : ℕ),
    (l.dropWhile p).head? = some a → p a = false := by
  intro l
  induction l with
  | nil => intro a h; simp [List.dropWhile] at h
  | cons x l ih =>
    intro a h
    rw [List.dropWhile_cons] at h
    split at h
    · exact ih a h
    · rename_i hpx
      obtain rfl : x = a := by simpa using h
      simpa using hpx

theorem dropWhile_head_not (p : ℕ → Bool) (l : List ℕ) (a : ℕ) (hh : l.head? = some a)
    (hp : p a = false) : l.dropWhile p = l := by
  cases l with
  | nil => rfl
  | cons x l =>
    obtain rfl : x = a := by simpa using hh
    rw [List.dropWhile_cons, if_neg (by simp [hp])]

theorem mem_of_getLast?_eq (l : List ℕ) (a : ℕ) (h : l.getLast? = some a) : a ∈ l := by
  have hne : l ≠ [] := by rintro rfl; simp at h
  rw [List.getLast?_eq_getLast l hne] at h
  obtain rfl : l.getLast hne = a := Option.some.inj h
  exact List.getLast_mem hne

theorem getLast?_suffix (s l : List ℕ) (hs : s <:+ l) (hne : s ≠ []) :
    s.getLast? = l.getLast? := by
  obtain ⟨pre, rfl⟩ := hs
  exact (List.getLast?_append_of_ne_nil pre hne).symm

theorem trimChars_getLast_not_ws (s : List ℕ) (a : ℕ)
    (h : (trimChars s).getLast? = some a) : isWsChar a = false := by
  unfold trimChars at h
  rw [← List.head?_reverse, List.reverse_reverse] at h
  exact head_dropWhile_not _ _ _ h

theorem trimChars_ne_nil (ds : List ℕ) (a : ℕ) (hlast : ds.getLast? = some a)
    (hws : isWsChar a = false) : trimChars ds ≠ [] := by
  have hYne : ds.dropWhile isWsChar ≠ [] := by
    intro habs
    rw [List.dropWhile_eq_nil_iff] at habs
    exact absurd (habs a (mem_of_getLast?_eq ds a hlast)) (by simp [hws])
  have hY : (ds.dropWhile isWsChar).getLast? = some a := by
    rw [getLast?_suffix _ ds (List.dropWhile_suffix _) hYne]
    exact hlast
  have hX : (ds.dropWhile isWsChar).reverse.head? = some a := by
    rw [List.head?_reverse]
    exact hY
  have hXdrop : (ds.dropWhile isWsChar).reverse.dropWhile isWsChar
      = (ds.dropWhile isWsChar).reverse :=
    dropWhile_head_not _ _ a hX hws
  unfold trimChars
  rw [hXdrop]
  simp [hYne]

theorem trimChars_subset (s : List ℕ) (c : ℕ) (hc : c ∈ trimChars s) : c ∈ s := by
  unfold trimChars at hc
  rw [List.mem_reverse] at hc
  have h2 := (List.dropWhile_suffix isWsChar).subset hc
  rw [List.mem_reverse] at h2
  exact (List.dropWhile_suffix isWsChar).subset h2

/-! ## Non-emptiness of emitted deltas -/

theorem trimBytes_drop_encode_trim_ne_nil (cs : List ℕ) (hval : ∀ c ∈ cs, ValidChar c) (k : ℕ)
    (hk : k < (utf8Encode (trimChars cs)).length) :
    trimBytes ((utf8Encode (trimChars cs)).drop k) ≠ [] := by
  have hvt : ∀ c ∈ trimChars cs, ValidChar c := fun c hc => hval c (trimChars_subset cs c hc)
  have haddne : (utf8Encode (trimChars cs)).drop k ≠ [] := by
    intro habs
    have hlen := congrArg List.length habs
    simp only [List.length_drop, List.length_nil] at hlen
    omega
  cases hd : utf8Decode ((utf8Encode (trimChars cs)).drop k) with
  | none =>
    simp only [trimBytes, hd]
    exact haddne
  | some ds =>
    simp only [trimBytes, hd]
    have hdsne : ds ≠ [] := utf8Decode_ne_nil haddne hd
    obtain ⟨j, rfl⟩ := utf8Decode_drop_encode (trimChars cs) hvt k ds hd
    have htne : trimChars cs ≠ [] := by
      intro habs
      rw [habs] at hk
      simp [utf8Encode] at hk
    have hlastt : (trimChars cs).getLast? = some ((trimChars cs).getLast htne) :=
      List.getLast?_eq_getLast _ htne
    have hnws : isWsChar ((trimChars cs).getLast htne) = false :=
      trimChars_getLast_not_ws cs _ hlastt
    have hlast2 : ((trimChars cs).drop j).getLast? = (trimChars cs).getLast? := by
      conv_rhs => rw [← List.take_append_drop j (trimChars cs)]
      rw [List.getLast?_append_of_ne_nil _ hdsne]
    rw [Ne, utf8Encode_eq_nil_iff]
    exact trimChars_ne_nil _ _ (hlast2.trans hlastt) hnws

theorem longestCommonPrefixBytes_decodes (l : List ByteStr) :
    ∃ cs, utf8Decode (longestCommonPrefixBytes l) = some cs := by
  unfold longestCommonPrefixBytes
  cases l with
  | nil => exact ⟨[], rfl⟩
  | cons first rest =>
    dsimp only
    cases hd : utf8Decode (rest.foldl lcpTwo first) with
    | none =>
      rw [if_neg (by simp [hd])]
      exact ⟨[], rfl⟩
    | some cs =>
      rw [if_pos (by simp [hd])]
      exact ⟨cs, hd⟩

/-- The trimmed LCP always decodes (it is a valid `String` or empty), so a
nonempty byte suffix of it still has non-whitespace content: its trim is
nonempty. -/
theorem trimBytes_lcp_drop_ne_nil (texts : List ByteStr) (k : ℕ)
    (hk : k < (trimBytes (longestCommonPrefixBytes texts)).length) :
    trimBytes ((trimBytes (longestCommonPrefixBytes texts)).drop k) ≠ [] := by
  obtain ⟨cs, hdc⟩ := longestCommonPrefixBytes_decodes texts
  have hval := utf8Decode_valid hdc
  have he : trimBytes (longestCommonPrefixBytes texts) = utf8Encode (trimChars cs) := by
    simp only [trimBytes, hdc]
  rw [he] at hk ⊢
  exact trimBytes_drop_encode_trim_ne_nil cs hval k hk

/-- Any delta returned by `push_and_confirm` still has content after
trimming: it is a nonempty byte suffix of the trimmed LCP. -/
theorem push_and_confirm_some_trim (st : StreamingAggregator) (x d : ByteStr)
    (h : (st.push_and_confirm x).2 = some d) : trimBytes d ≠ [] := by
  simp only [StreamingAggregator.push_and_confirm] at h
  split at h <;> split at h
  all_goals
    first
      | (dsimp only at h; exact Option.noConfusion h)
      | (split at h
         · dsimp only at h
           split at h
           · exact Option.noConfusion h
           · rename_i hgt hempty
             obtain rfl := Option.some.inj h
             exact trimBytes_lcp_drop_ne_nil _ _ hgt
         · dsimp only at h
           exact Option.noConfusion h)

/-- Claim C6 (amended): with `n ≤ 1`, every recognition result whose
trimmed text is non-empty produces exactly one `Transcription` event; its
text is the aggregator's newly confirmed delta when the (internally
clamped to `n = 2`) aggregator confirms one on this call, and the raw
trimmed hypothesis text otherwise.  The aggregator state advances exactly
as `push_and_confirm` dictates. -/
theorem orchestrator_passthrough_amended (n : ℕ) (agg : StreamingAggregator) (text : ByteStr)
    (hn : n ≤ 1) (hne : trimBytes text ≠ []) :
    (emitForResult n agg text).2
      = [((agg.push_and_confirm (trimBytes text)).2).getD (trimBytes text)] ∧
    (emitForResult n agg text).1 = (agg.push_and_confirm (trimBytes text)).1 := by
  simp only [emitForResult]
  rw [if_neg (by simp only [List.isEmpty_iff]; exact hne)]
  cases hr : (agg.push_and_confirm (trimBytes text)).2 with
  | none => simp [hr, hn]
  | some dd =>
    have hd := push_and_confirm_some_trim agg (trimBytes text) dd hr
    simp [hr, List.isEmpty_iff, hd]

/-- Claim C6 witness: with `n = 1` and a fresh aggregator, the hypothesis
`"a"` produces exactly one event, the raw text (nothing confirmed yet). -/
theorem orchestrator_passthrough_amended_witness :
    (1 : ℕ) ≤ 1 ∧ trimBytes [97] ≠ [] ∧
    (emitForResult 1 (StreamingAggregator.new 1) [97]).2
      = [(((StreamingAggregator.new 1).push_and_confirm (trimBytes [97])).2).getD
          (trimBytes [97])] :=
  ⟨le_refl 1, by decide,
   (orchestrator_passthrough_amended 1 (StreamingAggregator.new 1) [97] (le_refl 1)
     (by decide)).1⟩
